import Mathlib

/-
Verification of the tailmerge repository (C sources: heap.c, tailmerge.c,
test_heap.c) against its natural-language specification.

The C code is shallowly embedded: byte buffers become List Nat (one Nat per
unsigned char), the heap's entry array becomes a function Nat → Entry together
with an explicit length, file descriptors reading from a file become an
explicit list of not-yet-read bytes, and the output stream becomes a List Nat
accumulator.  Machine ints stay small in every scenario considered, so Int/Nat
model them exactly.
-/

set_option maxHeartbeats 1000000

namespace Tailmerge

/-! ## Byte-slice comparator (heap.c, slice_cmp)

memcmp compares unsigned chars over min(len_a, len_b) bytes; its result is
specified only up to sign, and the canonical implementation (difference of the
first differing pair) is used here.  slice_cmp then falls back to the length
difference.  All lengths in play are far below 2^31, so the C int arithmetic
is exact integer arithmetic. -/

def memcmpBytes : List Nat → List Nat → Int
  | a :: as, b :: bs => if a = b then memcmpBytes as bs else (a : Int) - (b : Int)
  | _, _ => 0

def slice_cmp (a b : List Nat) : Int :=
  let cmp := memcmpBytes a b
  if cmp = 0 then (a.length : Int) - (b.length : Int) else cmp

/-- The byte list of a string, one Nat per char (inputs are ASCII). -/
def strBytes (s : String) : List Nat := s.toList.map Char.toNat

/-! ## Byte-slice min-heap (heap.c)

A heap_entry is a key slice plus an int value; slices are materialized as the
byte lists they point at (valid because the drivers never mutate a buffer
while a slice into it is live — see the merge model below).  The entries
array is a total function Nat → Entry with an explicit length; C only ever
reads indices below length (all accesses in heap.c are guarded), so the
function representation reads back exactly the C array. -/

structure Entry where
  key : List Nat
  value : Int
deriving DecidableEq

instance : Inhabited Entry := ⟨⟨[], 0⟩⟩

structure HeapSt where
  cap : Nat
  entries : List Entry
deriving DecidableEq

/-- heap_create(SLICE_MIN, cap) followed by heap_set_memory: length 0.  The
entries list is exactly the live prefix entries[0, length) of the C array
(heap.c reads no index ≥ length), so heap->length is entries.length. -/
def emptyHeap (cap : Nat) : HeapSt := ⟨cap, []⟩

/-- entries[i] (all heap.c accesses are in bounds, so the default is never
the value actually read). -/
def getE (l : List Entry) (i : Nat) : Entry := l.getD i default

/-- The three-assignment swap through tmp used by heap.c. -/
def swapL (l : List Entry) (i j : Nat) : List Entry :=
  (l.set i (getE l j)).set j (getE l i)

/-- The sift-up loop of heap_push_slice, in the C's one-based indexing
(variable `inserted`, stops when the inserted entry compares greater than
its parent `half`).  The loop halves `inserted` each round, so it runs at
most log2(inserted) times; the first argument is fuel, and callers pass
`inserted` itself, which always suffices (fuel keeps the recursion
structural so that concrete runs evaluate inside the kernel). -/
def siftUp : Nat → List Entry → Nat → List Entry
  | 0, arr, _ => arr
  | fuel + 1, arr, inserted =>
    if 1 < inserted then
      if slice_cmp (getE arr (inserted - 1)).key (getE arr (inserted / 2 - 1)).key > 0 then arr
      else siftUp fuel (swapL arr (inserted / 2 - 1) (inserted - 1)) (inserted / 2)
    else arr

def heap_push_slice (h : HeapSt) (key : List Nat) (value : Int) : Bool × HeapSt :=
  if h.entries.length = h.cap then (false, h)
  else
    let arr0 := h.entries ++ [⟨key, value⟩]
    (true, ⟨h.cap, siftUp (h.entries.length + 1) arr0 (h.entries.length + 1)⟩)

/-- Model of struct iovec as an out-parameter of pop: base NULL becomes
none; for a real slice the pointed-at bytes are carried and len is their
count. -/
structure IovecM where
  base : Option (List Nat)
  len : Nat
deriving DecidableEq

/-- The sift-down loop of heap_pop_slice_value, one-based `new_parent`
starting at 1; the loop guard is new_parent*2 <= length.  The parent at
least doubles each round, so the loop runs at most log2(length) times; the
first argument is fuel, and the caller passes the (decremented) length,
which always suffices. -/
def siftDown : Nat → List Entry → Nat → List Entry
  | 0, arr, _ => arr
  | fuel + 1, arr, parent =>
    if parent * 2 ≤ arr.length then
      if parent * 2 + 1 ≤ arr.length
          ∧ slice_cmp (getE arr (parent * 2 + 1 - 1)).key (getE arr (parent * 2 - 1)).key < 0
          ∧ slice_cmp (getE arr (parent * 2 + 1 - 1)).key (getE arr (parent - 1)).key < 0 then
        siftDown fuel (swapL arr (parent - 1) (parent * 2 + 1 - 1)) (parent * 2 + 1)
      else if slice_cmp (getE arr (parent - 1)).key (getE arr (parent * 2 - 1)).key > 0 then
        siftDown fuel (swapL arr (parent - 1) (parent * 2 - 1)) (parent * 2)
      else arr
    else arr

/-- heap_pop_slice_value: on empty, -1 and a cleared out-key; otherwise
record the root, move the last entry to the root, decrement the length and
sift down. -/
def heap_pop_slice_value (h : HeapSt) : Int × IovecM × HeapSt :=
  if h.entries.length = 0 then (-1, ⟨none, 0⟩, h)
  else
    let top := getE h.entries 0
    let len1 := h.entries.length - 1
    let arr0 := (h.entries.set 0 (getE h.entries len1)).dropLast
    (top.value, ⟨some top.key, top.key.length⟩, ⟨h.cap, siftDown len1 arr0 1⟩)

def heap_is_empty (h : HeapSt) : Bool := h.entries.length = 0

/-- Min-heap property, phrased one-based as in heap.c: the parent j/2 of
every node j in range [2, len] compares ≤ 0 against it. -/
def IsHeap (arr : List Entry) (len : Nat) : Prop :=
  ∀ j : Nat, 2 ≤ j → j ≤ len →
    slice_cmp (getE arr (j / 2 - 1)).key (getE arr (j - 1)).key ≤ 0

/-- Heap operations as data, for quantifying over operation sequences. -/
inductive HOp where
  | push (key : List Nat) (value : Int)
  | pop
deriving DecidableEq

def runOp (h : HeapSt) : HOp → HeapSt
  | .push k v => (heap_push_slice h k v).2
  | .pop => (heap_pop_slice_value h).2.2

def runOps (h : HeapSt) (ops : List HOp) : HeapSt := ops.foldl runOp h

/-- Keys obtained by popping `n` times (fuel; n = h.len empties the heap),
stopping when the heap is empty — the drain loops of test_heap.c. -/
def drainKeys : Nat → HeapSt → List (List Nat)
  | 0, _ => []
  | n + 1, h =>
    if heap_is_empty h then []
    else
      let r := heap_pop_slice_value h
      (r.2.1.base.getD []) :: drainKeys n r.2.2

/-- Keys of popping a heap dry after running an operation sequence. -/
def drainAll (h : HeapSt) : List (List Nat) := drainKeys h.entries.length h

/-! ## Heap test harness (test_heap.c, perform_sequence)

The harness walks the input string: a comma pushes the bytes gathered since
the last delimiter (even when empty), a dash first pushes them when nonempty
and then pops once; at end of input the remainder is pushed when nonempty and
the heap is popped dry.  A global counter supplies the values.  The pop
callback records (key bytes, value) pairs; popping an empty heap records a
cleared key and -1, exactly what pop_store receives. -/

def heap_push_bytes (h : HeapSt) (key : List Nat) (value : Int) : Bool × HeapSt :=
  heap_push_slice h key value

/-- The final "pop all" loop (while not empty), recording pairs. -/
def drainPairs : Nat → HeapSt → List (List Nat × Int)
  | 0, _ => []
  | n + 1, h =>
    if heap_is_empty h then []
    else
      let r := heap_pop_slice_value h
      (r.2.1.base.getD [], r.1) :: drainPairs n r.2.2

def harnessLoop : List Char → List Nat → Int → HeapSt → List (List Nat × Int) →
    HeapSt × Int × List (List Nat × Int)
  | [], pending, n, h, outs =>
    if pending ≠ [] then ((heap_push_bytes h pending (n + 1)).2, n + 1, outs)
    else (h, n, outs)
  | c :: rest, pending, n, h, outs =>
    if c = ',' then
      harnessLoop rest [] (n + 1) (heap_push_bytes h pending (n + 1)).2 outs
    else if c = '-' then
      let s1 : HeapSt × Int :=
        if pending ≠ [] then ((heap_push_bytes h pending (n + 1)).2, n + 1) else (h, n)
      let r := heap_pop_slice_value s1.1
      harnessLoop rest [] s1.2 r.2.2 (outs ++ [(r.2.1.base.getD [], r.1)])
    else
      harnessLoop rest (pending ++ [c.toNat]) n h outs

/-- perform_sequence on a fresh heap of capacity strlen(input), as the
test_heap.c assert driver builds it; returns the recorded pops in order. -/
def perform_sequence (input : String) : List (List Nat × Int) :=
  let st := harnessLoop input.toList [] 0 (emptyHeap input.toList.length) []
  st.2.2 ++ drainPairs st.1.entries.length st.1

/-- Non-decreasing under slice_cmp. -/
def nonDecreasing : List (List Nat) → Prop
  | [] => True
  | [_] => True
  | a :: b :: rest => slice_cmp a b ≤ 0 ∧ nonDecreasing (b :: rest)

instance : DecidablePred nonDecreasing := by
  intro l
  induction l with
  | nil => exact .isTrue trivial
  | cons a t ih =>
    cases t with
    | nil => exact .isTrue trivial
    | cons b rest =>
      unfold nonDecreasing
      exact instDecidableAnd

/-! ## Sources and line framing (tailmerge.c, struct source)

A source is its buffer (exactly the initialized bytes [0, length), so the C
length field is buffer.length), the capacity, the start/end offsets of the
current line, and the not-yet-read remainder of the file.  read(2) is
deterministic here: it returns min(count, bytes left), which is how regular
files behave; multi-read scenarios arise by making capacity smaller than the
file. -/

structure SourceM where
  buffer : List Nat
  capacity : Nat
  start : Nat
  stop : Nat
  file : List Nat
deriving DecidableEq

instance : Inhabited SourceM := ⟨⟨[], 0, 0, 0, []⟩⟩

/-- memchr(p, '\n', n) over a byte-list region: index of the first 10. -/
def memchrNl (l : List Nat) : Option Nat := l.findIdx? (· = 10)

/-- source_line: the slice buffer[start, end). -/
def source_line (s : SourceM) : List Nat :=
  (s.buffer.drop s.start).take (s.stop - s.start)

/-- source_advance: step to the next line.  In the no-newline branch the C
returns false without touching start/end — the stale-tail bug discussed in
the claim results. -/
def source_advance (s : SourceM) : Bool × SourceM :=
  if s.stop = s.buffer.length then (false, { s with start := s.stop })
  else
    match memchrNl (s.buffer.drop s.stop) with
    | some i => (true, { s with start := s.stop, stop := s.stop + i + 1 })
    | none => (false, s)

/-- source_read: memmove buffer[start, end) to the front (a no-op when
start = 0), read up to capacity - end bytes at offset end, recompute end at
the first newline of the newly read bytes (or length when there is none).
Bytes of the old buffer beyond the kept prefix are dead: the new length is
end + more, and the C never reads past length. -/
def source_read (s : SourceM) : Bool × SourceM :=
  let stop1 := s.stop - s.start
  let kept := (s.buffer.drop s.start).take stop1
  let more := min (s.capacity - stop1) s.file.length
  let readBytes := s.file.take more
  let buffer1 := kept ++ readBytes
  let file1 := s.file.drop more
  if buffer1.length = 0 then (false, ⟨buffer1, s.capacity, 0, stop1, file1⟩)
  else
    match memchrNl readBytes with
    | some i => (true, ⟨buffer1, s.capacity, 0, stop1 + i + 1, file1⟩)
    | none => (true, ⟨buffer1, s.capacity, 0, buffer1.length, file1⟩)

/-- source_create for a file that opens successfully: fresh buffer of the
requested size, nothing read yet (main passes 0xffff as the size). -/
def mkSource (content : List Nat) (default_buffer_size : Nat) : SourceM :=
  ⟨[], default_buffer_size, 0, 0, content⟩

/-! ## Output coalescer (tailmerge.c, struct lines)

In the merge driver every writev succeeds in full, so a flush appends the
batched slices to the output stream and empties the batch; main creates the
batch with capacity 1024 and lines_add flushes first when it is full.  The
writev retry loop with explicit per-call results is modelled separately as
lines_flushW below. -/

def lines_add (st : List (List Nat) × List Nat) (slice : List Nat) :
    List (List Nat) × List Nat :=
  if st.1.length = 1024 then ([slice], st.2 ++ st.1.flatten)
  else (st.1 ++ [slice], st.2)

def lines_flush (st : List (List Nat) × List Nat) : List (List Nat) × List Nat :=
  ([], st.2 ++ st.1.flatten)

/-! ## The merge driver (tailmerge.c, main) -/

structure MergeSt where
  sources : List SourceM
  names : List (List Nat)
  sorter : HeapSt
  lines : List (List Nat)
  out : List Nat
  last : Int

/-- The streaming loop of the truncated-line branch (main, the inner
while (source_read(...)) loop), with is_truncated initialized to true by the
caller.  Returns the source, coalescer/output pair, the final is_truncated
flag, and the slice the C pushes on break (the `line` variable — the chunk
already handed to lines_add, exactly as the code does). -/
def streamTrunc : Nat → SourceM → (List (List Nat) × List Nat) → Bool →
    Option (SourceM × (List (List Nat) × List Nat) × Bool × Option (List Nat))
  | 0, _, _, _ => none
  | n + 1, src, lo, trunc =>
    match source_read src with
    | (false, src1) => some (src1, lo, trunc, none)
    | (true, src1) =>
      let line := source_line src1
      let lo1 := lines_add lo line
      let trunc1 : Bool := line.getLastD 0 != 10
      if trunc1 then streamTrunc n src1 (lines_flush lo1) trunc1
      else
        match source_advance src1 with
        | (true, src2) => some (src2, lo1, trunc1, some line)
        | (false, src2) => streamTrunc n src2 (lines_flush lo1) trunc1

/-- The main merge loop.  Terminating with the popped value -1 returns the
bytes written so far and exit status EX_OK = 0; as in the C, slices still
sitting in the coalescer at that point are destroyed without being written.
The fuel only bounds the iteration count; none is returned when it runs
out.  (After an iteration for source v, last == v whether or not the header
branch ran, so the recursive calls pass v as last.) -/
def mergeLoop : Nat → MergeSt → Option (List Nat × Nat)
  | 0, _ => none
  | n + 1, ⟨sources, names, sorter, lines, out, last⟩ =>
    match heap_pop_slice_value sorter with
    | (v, iov, sorter1) =>
      if v = -1 then some (out, 0)
      else
        let next := v.toNat
        let line := iov.base.getD []
        match
          (if v ≠ last then
            let lo := lines_add (lines, out)
              (if last = -1 then strBytes ">>> " else strBytes "\n>>> ")
            let lo := lines_add lo (names.getD next [])
            lines_add lo [10]
          else (lines, out)) with
        | (lines1, out1) =>
          match lines_add (lines1, out1) line with
          | (lines2, out2) =>
            match source_advance (sources.getD next default) with
            | (true, src1) =>
              mergeLoop n ⟨sources.set next src1, names,
                (heap_push_slice sorter1 (source_line src1) v).2, lines2, out2, v⟩
            | (false, src1) =>
              if line.getLastD 0 ≠ 10 then
                match streamTrunc n src1 (lines_flush (lines2, out2)) true with
                | none => none
                | some (src2, lo2, trunc, pushedLine) =>
                  match (if trunc then lines_add lo2 [10] else lo2) with
                  | (lines3, out3) =>
                    match pushedLine with
                    | some pl =>
                      mergeLoop n ⟨sources.set next src2, names,
                        (heap_push_slice sorter1 pl v).2, lines3, out3, v⟩
                    | none =>
                      mergeLoop n ⟨sources.set next src2, names, sorter1, lines3, out3, v⟩
              else
                match lines_flush (lines2, out2) with
                | (lines3, out3) =>
                  match source_read src1 with
                  | (true, src2) =>
                    mergeLoop n ⟨sources.set next src2, names,
                      (heap_push_slice sorter1 (source_line src2) v).2, lines3, out3, v⟩
                  | (false, src2) =>
                    mergeLoop n ⟨sources.set next src2, names, sorter1, lines3, out3, v⟩

/-- main's initialization loop: create each source, read once; push the
first line with the source index as value, or destroy the source on an
empty first read (the destroyed struct stays in the array and is never
popped). -/
def initSources (bufSize : Nat) : List (List Nat) → Nat → HeapSt → List SourceM × HeapSt
  | [], _, hp => ([], hp)
  | content :: rest, i, hp =>
    let s := mkSource content bufSize
    match source_read s with
    | (true, s1) =>
      let hp1 := (heap_push_slice hp (source_line s1) (Int.ofNat i)).2
      let r := initSources bufSize rest (i + 1) hp1
      (s1 :: r.1, r.2)
    | (false, s1) =>
      let r := initSources bufSize rest (i + 1) hp
      (s1 :: r.1, r.2)

/-- The whole program on a list of (file name bytes, file content bytes),
with the per-source buffer size as a parameter (source_create receives it
from main). -/
def tailmergeRun (fuel bufSize : Nat) (files : List (List Nat × List Nat)) :
    Option (List Nat × Nat) :=
  let init := initSources bufSize (files.map Prod.snd) 0 (emptyHeap files.length)
  mergeLoop fuel ⟨init.1, files.map Prod.fst, init.2, [], [], -1⟩

/-- main with its actual buffer size, 0xffff. -/
def tailmerge_main (fuel : Nat) (files : List (List Nat × List Nat)) :
    Option (List Nat × Nat) :=
  tailmergeRun fuel 0xffff files

/-! ## The writev retry loop of lines_flush, with explicit write results

lines_flushW runs lines_flush against an oracle list holding the return
value of each successive writev call.  Indexing is checked: advanceFrom
walks the suffix to_write[cw..] and reports the index of the first access
past the end of the array (the C's inner loop reads to_write[cw].iov_len
before checking cw against length). -/

inductive FlushOutcome where
  | flushed
  | ioError
  | oob (idx : Nat)
  | pending
deriving DecidableEq

/-- The inner loop advancing past fully written slices: called with the
suffix slices.drop cw.  Running off the end means the C evaluates
to_write[cw].iov_len out of bounds, reported as error cw. -/
def advanceFrom : List (List Nat) → Nat → Nat → Except Nat (Nat × Nat)
  | [], cw, _ => .error cw
  | sl :: rest, cw, written =>
    if written ≥ sl.length then advanceFrom rest (cw + 1) (written - sl.length)
    else .ok (cw, written)

/-- The retry loop of lines_flush: one oracle entry per writev call.  A
negative result makes checkerr exit with EX_IOERR (ioError); pending means
the oracle was exhausted while slices remained. -/
def lines_flushW : List Int → List (List Nat) → Nat → FlushOutcome
  | [], slices, cw => if cw < slices.length then .pending else .flushed
  | w :: rest, slices, cw =>
    if cw < slices.length then
      if w < 0 then .ioError
      else
        match advanceFrom (slices.drop cw) cw w.toNat with
        | .error i => .oob i
        | .ok (cw1, rem) =>
          let slices1 :=
            if rem ≠ 0 then slices.set cw1 ((slices.getD cw1 []).drop rem) else slices
          lines_flushW rest slices1 cw1
    else .flushed

/-! ## Error reporting (tailmerge.c, checkerr and source_create) -/

structure CError where
  status : Nat
  message : String
deriving DecidableEq

/-- checkerr: pass non-negative values through; otherwise print
"Failed to <desc>: <strerror>\n" to stderr and exit with the given status. -/
def checkerr (ret : Int) (status : Nat) (desc : String) (errmsg : String) :
    Except CError Int :=
  if ret ≥ 0 then .ok ret
  else .error ⟨status, "Failed to " ++ desc ++ ": " ++ errmsg ++ "\n"⟩

/-- The open call of source_create: checkerr(open(path, O_RDONLY), 2,
"opening %s", path) — the literal status 2 from tailmerge.c line 92,
parameterized by what open returns and by the strerror text. -/
def source_create_open (path : String) (openRet : Int) (errmsg : String) :
    Except CError Int :=
  checkerr openRet 2 ("opening " ++ path) errmsg

/-- Whether pat occurs as a contiguous byte run inside l. -/
def startsWithBytes : List Nat → List Nat → Bool
  | [], _ => true
  | _ :: _, [] => false
  | p :: ps, x :: xs => if p = x then startsWithBytes ps xs else false

def occursIn (pat : List Nat) : List Nat → Bool
  | [] => startsWithBytes pat []
  | x :: xs => startsWithBytes pat (x :: xs) || occursIn pat xs

/-- sign of a C comparator result. -/
def sign (x : Int) : Int := if x < 0 then -1 else if x = 0 then 0 else 1

end Tailmerge

namespace Tailmerge

@[simp]
theorem memcmpBytes_nil_left (b : List Nat) : memcmpBytes [] b = 0 := by
  cases b <;> rfl

@[simp]
theorem memcmpBytes_nil_right (a : List Nat) : memcmpBytes a [] = 0 := by
  cases a <;> rfl

theorem memcmpBytes_cons (a b : Nat) (as bs : List Nat) :
    memcmpBytes (a :: as) (b :: bs)
      = if a = b then memcmpBytes as bs else (a : Int) - (b : Int) := rfl

theorem memcmpBytes_swap (a : List Nat) : ∀ b : List Nat,
    memcmpBytes b a = - memcmpBytes a b := by
  induction a with
  | nil => intro b; simp
  | cons x as ih =>
    intro b
    cases b with
    | nil => simp
    | cons y bs =>
      rw [memcmpBytes_cons, memcmpBytes_cons]
      by_cases h : x = y
      · simp [h, ih]
      · have h' : y ≠ x := fun hyx => h hyx.symm
        simp [h, h']

theorem memcmpBytes_self (a : List Nat) : memcmpBytes a a = 0 := by
  induction a with
  | nil => simp
  | cons x as ih => simp [memcmpBytes_cons, ih]

theorem slice_cmp_self (a : List Nat) : slice_cmp a a = 0 := by
  simp [slice_cmp, memcmpBytes_self]

theorem slice_cmp_swap (a b : List Nat) : slice_cmp b a = - slice_cmp a b := by
  unfold slice_cmp
  rw [memcmpBytes_swap a b]
  by_cases h : memcmpBytes a b = 0
  · simp [h]
  · simp [h]

theorem slice_cmp_nil_left (b : List Nat) : slice_cmp [] b = - (b.length : Int) := by
  simp [slice_cmp]

theorem slice_cmp_nil_right (a : List Nat) : slice_cmp a [] = (a.length : Int) := by
  simp [slice_cmp]

theorem slice_cmp_cons_eq (x : Nat) (as bs : List Nat) :
    slice_cmp (x :: as) (x :: bs) = slice_cmp as bs := by
  by_cases h : memcmpBytes as bs = 0
  · simp [slice_cmp, memcmpBytes_cons, h]
  · simp [slice_cmp, memcmpBytes_cons, h]

theorem slice_cmp_cons_ne (x y : Nat) (as bs : List Nat) (h : x ≠ y) :
    slice_cmp (x :: as) (y :: bs) = (x : Int) - (y : Int) := by
  have hne : (x : Int) - (y : Int) ≠ 0 := by omega
  simp [slice_cmp, memcmpBytes_cons, h, hne]

theorem slice_cmp_trans (a : List Nat) : ∀ b c : List Nat,
    slice_cmp a b ≤ 0 → slice_cmp b c ≤ 0 → slice_cmp a c ≤ 0 := by
  induction a with
  | nil =>
    intro b c _ _
    rw [slice_cmp_nil_left]
    omega
  | cons x as ih =>
    intro b c hab hbc
    cases b with
    | nil =>
      rw [slice_cmp_nil_right] at hab
      simp at hab
      omega
    | cons y bs =>
      cases c with
      | nil =>
        rw [slice_cmp_nil_right] at hbc
        simp at hbc
        omega
      | cons z cs =>
        by_cases hxy : x = y
        · subst hxy
          rw [slice_cmp_cons_eq] at hab
          by_cases hyz : x = z
          · subst hyz
            rw [slice_cmp_cons_eq] at hbc
            rw [slice_cmp_cons_eq]
            exact ih bs cs hab hbc
          · rw [slice_cmp_cons_ne _ _ _ _ hyz] at hbc
            rw [slice_cmp_cons_ne _ _ _ _ hyz]
            exact hbc
        · rw [slice_cmp_cons_ne _ _ _ _ hxy] at hab
          by_cases hyz : y = z
          · subst hyz
            rw [slice_cmp_cons_ne _ _ _ _ hxy]
            exact hab
          · rw [slice_cmp_cons_ne _ _ _ _ hyz] at hbc
            have hxz : x ≠ z := by omega
            rw [slice_cmp_cons_ne _ _ _ _ hxz]
            omega

/-! ## Heap invariant machinery -/

theorem getE_set : ∀ (l : List Entry) (i : Nat) (v : Entry) (j : Nat),
    getE (l.set i v) j = if j = i ∧ i < l.length then v else getE l j := by
  intro l
  induction l with
  | nil =>
    intro i v j
    simp [getE]
  | cons a t ih =>
    intro i v j
    cases i with
    | zero =>
      cases j with
      | zero => simp [getE]
      | succ j => simp [getE]
    | succ i =>
      cases j with
      | zero => simp [getE]
      | succ j =>
        have h1 : getE ((a :: t).set (i + 1) v) (j + 1) = getE (t.set i v) j := by
          simp [getE]
        have h2 : getE (a :: t) (j + 1) = getE t j := by
          simp [getE]
        have hiff : (j + 1 = i + 1 ∧ i + 1 < (a :: t).length) ↔ (j = i ∧ i < t.length) := by
          simp only [List.length_cons]
          omega
        rw [h1, h2, ih i v j, if_congr hiff rfl rfl]

theorem length_swapL (l : List Entry) (i j : Nat) : (swapL l i j).length = l.length := by
  simp [swapL]

theorem swapL_getE (l : List Entry) (i j : Nat) (hi : i < l.length) (hj : j < l.length)
    (p : Nat) :
    getE (swapL l i j) p
      = if p = j then getE l i else if p = i then getE l j else getE l p := by
  unfold swapL
  rw [getE_set, getE_set]
  by_cases hpj : p = j
  · rw [if_pos ⟨hpj, by simpa using hj⟩, if_pos hpj]
  · rw [if_neg (fun hc => hpj hc.1), if_neg hpj]
    by_cases hpi : p = i
    · rw [if_pos ⟨hpi, hi⟩, if_pos hpi]
    · rw [if_neg (fun hc => hpi hc.1), if_neg hpi]

theorem getE_append_left (l l' : List Entry) (j : Nat) (hj : j < l.length) :
    getE (l ++ l') j = getE l j := by
  unfold getE
  induction l generalizing j with
  | nil => simp at hj
  | cons a t ih =>
    cases j with
    | zero => simp
    | succ j =>
      simp only [List.cons_append, List.getD_cons_succ]
      exact ih j (by simp at hj; omega)

theorem getE_dropLast : ∀ (l : List Entry) (j : Nat), j + 1 < l.length →
    getE l.dropLast j = getE l j := by
  intro l
  induction l with
  | nil =>
    intro j hj
    simp at hj
  | cons a t ih =>
    intro j hj
    cases t with
    | nil => simp at hj
    | cons b t2 =>
      cases j with
      | zero => simp [getE]
      | succ j =>
        have := ih j (by simp at hj ⊢; omega)
        simp only [List.dropLast_cons₂, getE, List.getD_cons_succ] at this ⊢
        exact this

theorem length_siftUp : ∀ (fuel : Nat) (arr : List Entry) (k : Nat),
    (siftUp fuel arr k).length = arr.length := by
  intro fuel
  induction fuel with
  | zero => intro arr k; rw [siftUp]
  | succ fuel IH =>
    intro arr k
    rw [siftUp]
    by_cases hk : 1 < k
    · rw [if_pos hk]
      by_cases hc : slice_cmp (getE arr (k - 1)).key (getE arr (k / 2 - 1)).key > 0
      · rw [if_pos hc]
      · rw [if_neg hc, IH, length_swapL]
    · rw [if_neg hk]

theorem length_siftDown : ∀ (fuel : Nat) (arr : List Entry) (k : Nat),
    (siftDown fuel arr k).length = arr.length := by
  intro fuel
  induction fuel with
  | zero => intro arr k; rw [siftDown]
  | succ fuel IH =>
    intro arr k
    rw [siftDown]
    by_cases hg : k * 2 ≤ arr.length
    · rw [if_pos hg]
      by_cases hA : k * 2 + 1 ≤ arr.length
          ∧ slice_cmp (getE arr (k * 2 + 1 - 1)).key (getE arr (k * 2 - 1)).key < 0
          ∧ slice_cmp (getE arr (k * 2 + 1 - 1)).key (getE arr (k - 1)).key < 0
      · rw [if_pos hA, IH, length_swapL]
      · rw [if_neg hA]
        by_cases hB : slice_cmp (getE arr (k - 1)).key (getE arr (k * 2 - 1)).key > 0
        · rw [if_pos hB, IH, length_swapL]
        · rw [if_neg hB]
    · rw [if_neg hg]

theorem siftUp_isHeap (len : Nat) :
    ∀ (fuel k : Nat) (arr : List Entry), arr.length = len → k ≤ fuel → 1 ≤ k → k ≤ len →
    (∀ j, 2 ≤ j → j ≤ len → j ≠ k →
        slice_cmp (getE arr (j / 2 - 1)).key (getE arr (j - 1)).key ≤ 0) →
    (∀ j, 2 ≤ j → j ≤ len → j / 2 = k → 2 ≤ k →
        slice_cmp (getE arr (k / 2 - 1)).key (getE arr (j - 1)).key ≤ 0) →
    IsHeap (siftUp fuel arr k) len := by
  intro fuel
  induction fuel with
  | zero =>
    intro k arr harr hf hk1 hklen H1 H2
    exact absurd hf (by omega)
  | succ fuel IH =>
    intro k arr harr hf hk1 hklen H1 H2
    rw [siftUp]
    by_cases hk : 1 < k
    · rw [if_pos hk]
      by_cases hc : slice_cmp (getE arr (k - 1)).key (getE arr (k / 2 - 1)).key > 0
      · rw [if_pos hc]
        intro j hj2 hjlen
        by_cases hjk : j = k
        · subst hjk
          have hs := slice_cmp_swap (getE arr (j - 1)).key (getE arr (j / 2 - 1)).key
          omega
        · exact H1 j hj2 hjlen hjk
      · rw [if_neg hc]
        push_neg at hc
        apply IH (k / 2) (swapL arr (k / 2 - 1) (k - 1)) (by simp [swapL, harr])
          (by omega) (by omega) (by omega)
        · -- heap property away from the new hole k/2
          intro j hj2 hjlen hjh
          rw [swapL_getE arr (k / 2 - 1) (k - 1) (by omega) (by omega),
            swapL_getE arr (k / 2 - 1) (k - 1) (by omega) (by omega)]
          by_cases hjk : j = k
          · subst hjk
            rw [if_pos rfl, if_neg (by omega : ¬ (j / 2 - 1 = j - 1)),
              if_pos rfl]
            exact hc
          · rw [if_neg (by omega : ¬ (j - 1 = k - 1)),
              if_neg (by omega : ¬ (j - 1 = k / 2 - 1))]
            by_cases hPk : j / 2 = k
            · rw [if_pos (by omega : j / 2 - 1 = k - 1)]
              exact H2 j hj2 hjlen hPk (by omega)
            · by_cases hPh : j / 2 = k / 2
              · rw [if_neg (by omega : ¬ (j / 2 - 1 = k - 1)),
                  if_pos (by omega : j / 2 - 1 = k / 2 - 1)]
                have Hj := H1 j hj2 hjlen hjk
                rw [show j / 2 - 1 = k / 2 - 1 by omega] at Hj
                exact slice_cmp_trans _ _ _ hc Hj
              · rw [if_neg (by omega : ¬ (j / 2 - 1 = k - 1)),
                  if_neg (by omega : ¬ (j / 2 - 1 = k / 2 - 1))]
                exact H1 j hj2 hjlen hjk
        · -- grandparent bound for the children of the new hole k/2
          intro j hj2 hjlen hPh2 hk2
          rw [swapL_getE arr (k / 2 - 1) (k - 1) (by omega) (by omega),
            swapL_getE arr (k / 2 - 1) (k - 1) (by omega) (by omega)]
          rw [if_neg (by omega : ¬ (k / 2 / 2 - 1 = k - 1)),
            if_neg (by omega : ¬ (k / 2 / 2 - 1 = k / 2 - 1))]
          by_cases hjk : j = k
          · subst hjk
            rw [if_pos rfl]
            exact H1 (j / 2) hk2 (by omega) (by omega)
          · rw [if_neg (by omega : ¬ (j - 1 = k - 1)),
              if_neg (by omega : ¬ (j - 1 = k / 2 - 1))]
            have Hj := H1 j hj2 hjlen hjk
            rw [show j / 2 - 1 = k / 2 - 1 by omega] at Hj
            exact slice_cmp_trans _ _ _ (H1 (k / 2) hk2 (by omega) (by omega)) Hj
    · rw [if_neg hk]
      intro j hj2 hjlen
      exact H1 j hj2 hjlen (by omega)

theorem siftDown_isHeap (len : Nat) :
    ∀ (fuel k : Nat) (arr : List Entry), arr.length = len → len + 1 - k ≤ fuel → 1 ≤ k →
    (∀ j, 2 ≤ j → j ≤ len → j / 2 ≠ k →
        slice_cmp (getE arr (j / 2 - 1)).key (getE arr (j - 1)).key ≤ 0) →
    (∀ j, 2 ≤ j → j ≤ len → j / 2 = k → 2 ≤ k →
        slice_cmp (getE arr (k / 2 - 1)).key (getE arr (j - 1)).key ≤ 0) →
    IsHeap (siftDown fuel arr k) len := by
  intro fuel
  induction fuel with
  | zero =>
    intro k arr harr hm hk1 H1 H2
    rw [siftDown]
    intro j hj2 hjlen
    exact H1 j hj2 hjlen (by omega)
  | succ m IHm =>
    intro k arr harr hm hk1 H1 H2
    rw [siftDown]
    by_cases hg : k * 2 ≤ arr.length
    · rw [if_pos hg]
      by_cases hA : k * 2 + 1 ≤ arr.length
          ∧ slice_cmp (getE arr (k * 2 + 1 - 1)).key (getE arr (k * 2 - 1)).key < 0
          ∧ slice_cmp (getE arr (k * 2 + 1 - 1)).key (getE arr (k - 1)).key < 0
      · rw [if_pos hA]
        obtain ⟨hr, hrl, hrk⟩ := hA
        apply IHm (k * 2 + 1) (swapL arr (k - 1) (k * 2 + 1 - 1)) (by simp [swapL, harr])
          (by omega) (by omega)
        · -- heap property away from the new hole 2k+1
          intro j hj2 hjlen hjP
          rw [swapL_getE arr (k - 1) (k * 2 + 1 - 1) (by omega) (by omega),
            swapL_getE arr (k - 1) (k * 2 + 1 - 1) (by omega) (by omega)]
          by_cases hjl : j = k * 2
          · subst hjl
            rw [if_neg (by omega : ¬ (k * 2 - 1 = k * 2 + 1 - 1)),
              if_neg (by omega : ¬ (k * 2 - 1 = k - 1)),
              if_neg (by omega : ¬ (k * 2 / 2 - 1 = k * 2 + 1 - 1)),
              if_pos (by omega : k * 2 / 2 - 1 = k - 1)]
            exact le_of_lt hrl
          · by_cases hjr : j = k * 2 + 1
            · subst hjr
              rw [if_pos rfl,
                if_neg (by omega : ¬ ((k * 2 + 1) / 2 - 1 = k * 2 + 1 - 1)),
                if_pos (by omega : (k * 2 + 1) / 2 - 1 = k - 1)]
              exact le_of_lt hrk
            · by_cases hjk : j = k
              · subst hjk
                rw [if_neg (by omega : ¬ (j - 1 = j * 2 + 1 - 1)),
                  if_pos rfl,
                  if_neg (by omega : ¬ (j / 2 - 1 = j * 2 + 1 - 1)),
                  if_neg (by omega : ¬ (j / 2 - 1 = j - 1))]
                exact H2 (j * 2 + 1) (by omega) (by omega) (by omega) (by omega)
              · rw [if_neg (by omega : ¬ (j - 1 = k * 2 + 1 - 1)),
                  if_neg (by omega : ¬ (j - 1 = k - 1)),
                  if_neg (by omega : ¬ (j / 2 - 1 = k * 2 + 1 - 1)),
                  if_neg (by omega : ¬ (j / 2 - 1 = k - 1))]
                exact H1 j hj2 hjlen (by omega)
        · -- grandparent bound for children of the new hole 2k+1
          intro j hj2 hjlen hjP hk2
          rw [swapL_getE arr (k - 1) (k * 2 + 1 - 1) (by omega) (by omega),
            swapL_getE arr (k - 1) (k * 2 + 1 - 1) (by omega) (by omega)]
          rw [show (k * 2 + 1) / 2 - 1 = k - 1 by omega,
            if_neg (by omega : ¬ (k - 1 = k * 2 + 1 - 1)),
            if_pos rfl,
            if_neg (by omega : ¬ (j - 1 = k * 2 + 1 - 1)),
            if_neg (by omega : ¬ (j - 1 = k - 1))]
          have Hj := H1 j hj2 hjlen (by omega)
          rw [show j / 2 - 1 = k * 2 + 1 - 1 by omega] at Hj
          exact Hj
      · rw [if_neg hA]
        push_neg at hA
        by_cases hB : slice_cmp (getE arr (k - 1)).key (getE arr (k * 2 - 1)).key > 0
        · rw [if_pos hB]
          apply IHm (k * 2) (swapL arr (k - 1) (k * 2 - 1)) (by simp [swapL, harr])
            (by omega) (by omega)
          · -- heap property away from the new hole 2k
            intro j hj2 hjlen hjP
            rw [swapL_getE arr (k - 1) (k * 2 - 1) (by omega) (by omega),
              swapL_getE arr (k - 1) (k * 2 - 1) (by omega) (by omega)]
            by_cases hjl : j = k * 2
            · subst hjl
              rw [if_pos rfl,
                if_neg (by omega : ¬ (k * 2 / 2 - 1 = k * 2 - 1)),
                if_pos (by omega : k * 2 / 2 - 1 = k - 1)]
              have hs := slice_cmp_swap (getE arr (k - 1)).key (getE arr (k * 2 - 1)).key
              omega
            · by_cases hjr : j = k * 2 + 1
              · subst hjr
                rw [if_neg (by omega : ¬ (k * 2 + 1 - 1 = k * 2 - 1)),
                  if_neg (by omega : ¬ (k * 2 + 1 - 1 = k - 1)),
                  if_neg (by omega : ¬ ((k * 2 + 1) / 2 - 1 = k * 2 - 1)),
                  if_pos (by omega : (k * 2 + 1) / 2 - 1 = k - 1)]
                have hr : k * 2 + 1 ≤ arr.length := by omega
                have hs1 := slice_cmp_swap (getE arr (k - 1)).key (getE arr (k * 2 - 1)).key
                have hs2 := slice_cmp_swap (getE arr (k * 2 + 1 - 1)).key
                  (getE arr (k * 2 - 1)).key
                have hs3 := slice_cmp_swap (getE arr (k * 2 + 1 - 1)).key
                  (getE arr (k - 1)).key
                by_cases hcase :
                    slice_cmp (getE arr (k * 2 + 1 - 1)).key (getE arr (k * 2 - 1)).key < 0
                · have h3 := hA hr hcase
                  have h4 : slice_cmp (getE arr (k * 2 - 1)).key (getE arr (k - 1)).key
                      ≤ 0 := by omega
                  have h5 : slice_cmp (getE arr (k - 1)).key (getE arr (k * 2 + 1 - 1)).key
                      ≤ 0 := by omega
                  exact slice_cmp_trans _ _ _ h4 h5
                · have h4 : slice_cmp (getE arr (k * 2 - 1)).key
                      (getE arr (k * 2 + 1 - 1)).key ≤ 0 := by omega
                  exact h4
              · by_cases hjk : j = k
                · subst hjk
                  rw [if_neg (by omega : ¬ (j - 1 = j * 2 - 1)),
                    if_pos rfl,
                    if_neg (by omega : ¬ (j / 2 - 1 = j * 2 - 1)),
                    if_neg (by omega : ¬ (j / 2 - 1 = j - 1))]
                  exact H2 (j * 2) (by omega) (by omega) (by omega) (by omega)
                · rw [if_neg (by omega : ¬ (j - 1 = k * 2 - 1)),
                    if_neg (by omega : ¬ (j - 1 = k - 1)),
                    if_neg (by omega : ¬ (j / 2 - 1 = k * 2 - 1)),
                    if_neg (by omega : ¬ (j / 2 - 1 = k - 1))]
                  exact H1 j hj2 hjlen (by omega)
          · -- grandparent bound for children of the new hole 2k
            intro j hj2 hjlen hjP hk2
            rw [swapL_getE arr (k - 1) (k * 2 - 1) (by omega) (by omega),
              swapL_getE arr (k - 1) (k * 2 - 1) (by omega) (by omega)]
            rw [show k * 2 / 2 - 1 = k - 1 by omega,
              if_neg (by omega : ¬ (k - 1 = k * 2 - 1)), if_pos rfl,
              if_neg (by omega : ¬ (j - 1 = k * 2 - 1)),
              if_neg (by omega : ¬ (j - 1 = k - 1))]
            have Hj := H1 j hj2 hjlen (by omega)
            rw [show j / 2 - 1 = k * 2 - 1 by omega] at Hj
            exact Hj
        · rw [if_neg hB]
          push_neg at hB
          intro j hj2 hjlen
          by_cases hPk : j / 2 = k
          · by_cases hjl : j = k * 2
            · subst hjl
              rw [show k * 2 / 2 - 1 = k - 1 by omega]
              exact hB
            · have hjr : j = k * 2 + 1 := by omega
              subst hjr
              rw [show (k * 2 + 1) / 2 - 1 = k - 1 by omega]
              have hr : k * 2 + 1 ≤ arr.length := by omega
              have hs2 := slice_cmp_swap (getE arr (k * 2 + 1 - 1)).key
                (getE arr (k * 2 - 1)).key
              have hs3 := slice_cmp_swap (getE arr (k * 2 + 1 - 1)).key
                (getE arr (k - 1)).key
              by_cases hcase :
                  slice_cmp (getE arr (k * 2 + 1 - 1)).key (getE arr (k * 2 - 1)).key < 0
              · have h3 := hA hr hcase
                omega
              · have h4 : slice_cmp (getE arr (k * 2 - 1)).key
                    (getE arr (k * 2 + 1 - 1)).key ≤ 0 := by omega
                exact slice_cmp_trans _ _ _ hB h4
          · exact H1 j hj2 hjlen hPk
    · rw [if_neg hg]
      intro j hj2 hjlen
      exact H1 j hj2 hjlen (by omega)

theorem isHeap_root_le (arr : List Entry) (len : Nat) (H : IsHeap arr len) :
    ∀ j, 1 ≤ j → j ≤ len → slice_cmp (getE arr 0).key (getE arr (j - 1)).key ≤ 0 := by
  intro j
  induction j using Nat.strong_induction_on with
  | _ j IH =>
    intro hj1 hjlen
    by_cases hj2 : 2 ≤ j
    · exact slice_cmp_trans _ _ _ (IH (j / 2) (by omega) (by omega) (by omega))
        (H j hj2 hjlen)
    · have hj : j = 1 := by omega
      subst hj
      simp [slice_cmp_self]

theorem push_eq_of_room (h : HeapSt) (key : List Nat) (v : Int)
    (hr : h.entries.length ≠ h.cap) :
    heap_push_slice h key v
      = (true, ⟨h.cap, siftUp (h.entries.length + 1) (h.entries ++ [⟨key, v⟩])
          (h.entries.length + 1)⟩) := by
  unfold heap_push_slice
  rw [if_neg hr]

theorem pop_eq_of_ne (h : HeapSt) (hz : h.entries.length ≠ 0) :
    heap_pop_slice_value h
      = ((getE h.entries 0).value,
          ⟨some (getE h.entries 0).key, (getE h.entries 0).key.length⟩,
          ⟨h.cap, siftDown (h.entries.length - 1)
            ((h.entries.set 0 (getE h.entries (h.entries.length - 1))).dropLast) 1⟩) := by
  unfold heap_pop_slice_value
  rw [if_neg hz]

theorem push_isHeap (h : HeapSt) (key : List Nat) (v : Int)
    (H : IsHeap h.entries h.entries.length) :
    IsHeap (heap_push_slice h key v).2.entries (heap_push_slice h key v).2.entries.length := by
  by_cases hr : h.entries.length = h.cap
  · unfold heap_push_slice
    rw [if_pos hr]
    exact H
  · rw [push_eq_of_room h key v hr]
    show IsHeap (siftUp (h.entries.length + 1) (h.entries ++ [⟨key, v⟩])
      (h.entries.length + 1)) (siftUp (h.entries.length + 1) (h.entries ++ [⟨key, v⟩])
      (h.entries.length + 1)).length
    rw [length_siftUp, List.length_append, List.length_singleton]
    have key1 : ∀ j, 2 ≤ j → j ≤ h.entries.length + 1 → j ≠ h.entries.length + 1 →
        slice_cmp (getE (h.entries ++ [⟨key, v⟩]) (j / 2 - 1)).key
          (getE (h.entries ++ [⟨key, v⟩]) (j - 1)).key ≤ 0 := by
      intro j hj2 hjlen hjk
      rw [getE_append_left _ _ _ (by omega : j - 1 < h.entries.length),
        getE_append_left _ _ _ (by omega : j / 2 - 1 < h.entries.length)]
      exact H j hj2 (by omega)
    have key2 : ∀ j, 2 ≤ j → j ≤ h.entries.length + 1 → j / 2 = h.entries.length + 1 →
        2 ≤ h.entries.length + 1 →
        slice_cmp (getE (h.entries ++ [⟨key, v⟩]) ((h.entries.length + 1) / 2 - 1)).key
          (getE (h.entries ++ [⟨key, v⟩]) (j - 1)).key ≤ 0 := by
      intro j hj2 hjlen hPk hk2
      omega
    have hmain := siftUp_isHeap (h.entries.length + 1) (h.entries.length + 1)
      (h.entries.length + 1) (h.entries ++ [⟨key, v⟩]) (by simp) (by omega) (by omega)
      (by omega) key1 key2
    exact hmain

theorem pop_isHeap (h : HeapSt) (H : IsHeap h.entries h.entries.length) :
    IsHeap (heap_pop_slice_value h).2.2.entries (heap_pop_slice_value h).2.2.entries.length := by
  by_cases hz : h.entries.length = 0
  · unfold heap_pop_slice_value
    rw [if_pos hz]
    exact H
  · rw [pop_eq_of_ne h hz]
    show IsHeap (siftDown (h.entries.length - 1)
        ((h.entries.set 0 (getE h.entries (h.entries.length - 1))).dropLast) 1)
      (siftDown (h.entries.length - 1)
        ((h.entries.set 0 (getE h.entries (h.entries.length - 1))).dropLast) 1).length
    have hlen0 : ((h.entries.set 0 (getE h.entries (h.entries.length - 1))).dropLast).length
        = h.entries.length - 1 := by
      simp
    rw [length_siftDown, hlen0]
    apply siftDown_isHeap (h.entries.length - 1) (h.entries.length - 1) 1 _ hlen0
      (by omega) (by omega)
    · intro j hj2 hjlen hjP
      rw [getE_dropLast _ _ (by simp; omega), getE_dropLast _ _ (by simp; omega),
        getE_set, getE_set]
      rw [if_neg (fun hc => by omega : ¬ (j - 1 = 0 ∧ 0 < h.entries.length)),
        if_neg (fun hc => by omega : ¬ (j / 2 - 1 = 0 ∧ 0 < h.entries.length))]
      exact H j hj2 (by omega)
    · intro j hj2 hjlen hjP hk2
      omega

theorem siftDown_LB (len : Nat) (b : List Nat) :
    ∀ (fuel k : Nat) (arr : List Entry), arr.length = len → len + 1 - k ≤ fuel → 1 ≤ k →
    (∀ j, 1 ≤ j → j ≤ len → slice_cmp b (getE arr (j - 1)).key ≤ 0) →
    ∀ j, 1 ≤ j → j ≤ len → slice_cmp b (getE (siftDown fuel arr k) (j - 1)).key ≤ 0 := by
  intro fuel
  induction fuel with
  | zero =>
    intro k arr harr hm hk1 HLB
    rw [siftDown]
    exact HLB
  | succ m IHm =>
    intro k arr harr hm hk1 HLB
    rw [siftDown]
    by_cases hg : k * 2 ≤ arr.length
    · rw [if_pos hg]
      by_cases hA : k * 2 + 1 ≤ arr.length
          ∧ slice_cmp (getE arr (k * 2 + 1 - 1)).key (getE arr (k * 2 - 1)).key < 0
          ∧ slice_cmp (getE arr (k * 2 + 1 - 1)).key (getE arr (k - 1)).key < 0
      · rw [if_pos hA]
        apply IHm (k * 2 + 1) _ (by simp [swapL, harr]) (by omega) (by omega)
        intro j hj1 hjlen
        rw [swapL_getE arr (k - 1) (k * 2 + 1 - 1) (by omega) (by omega)]
        by_cases e1 : j - 1 = k * 2 + 1 - 1
        · rw [if_pos e1]
          exact HLB k (by omega) (by omega)
        · rw [if_neg e1]
          by_cases e2 : j - 1 = k - 1
          · rw [if_pos e2]
            exact HLB (k * 2 + 1) (by omega) (by omega)
          · rw [if_neg e2]
            exact HLB j hj1 hjlen
      · rw [if_neg hA]
        by_cases hB : slice_cmp (getE arr (k - 1)).key (getE arr (k * 2 - 1)).key > 0
        · rw [if_pos hB]
          apply IHm (k * 2) _ (by simp [swapL, harr]) (by omega) (by omega)
          intro j hj1 hjlen
          rw [swapL_getE arr (k - 1) (k * 2 - 1) (by omega) (by omega)]
          by_cases e1 : j - 1 = k * 2 - 1
          · rw [if_pos e1]
            exact HLB k (by omega) (by omega)
          · rw [if_neg e1]
            by_cases e2 : j - 1 = k - 1
            · rw [if_pos e2]
              exact HLB (k * 2) (by omega) (by omega)
            · rw [if_neg e2]
              exact HLB j hj1 hjlen
        · rw [if_neg hB]
          exact HLB
    · rw [if_neg hg]
      exact HLB

theorem pop_LB (h : HeapSt) (H : IsHeap h.entries h.entries.length)
    (hz : h.entries.length ≠ 0) :
    ∀ j, 1 ≤ j → j ≤ (heap_pop_slice_value h).2.2.entries.length →
      slice_cmp (getE h.entries 0).key
        (getE (heap_pop_slice_value h).2.2.entries (j - 1)).key ≤ 0 := by
  rw [pop_eq_of_ne h hz]
  intro j hj1 hjlen
  rw [length_siftDown] at hjlen
  have hlen0 : ((h.entries.set 0 (getE h.entries (h.entries.length - 1))).dropLast).length
      = h.entries.length - 1 := by
    simp
  rw [hlen0] at hjlen
  apply siftDown_LB (h.entries.length - 1) (getE h.entries 0).key (h.entries.length - 1) 1 _
    hlen0 (by omega) (by omega) _ j hj1 hjlen
  intro i hi1 hilen
  rw [getE_dropLast _ _ (by simp; omega), getE_set]
  by_cases e : i - 1 = 0 ∧ 0 < h.entries.length
  · rw [if_pos e]
    exact isHeap_root_le h.entries h.entries.length H h.entries.length (by omega) (by omega)
  · rw [if_neg e]
    exact isHeap_root_le h.entries h.entries.length H i (by omega) (by omega)

theorem drainKeys_bounded_sorted :
    ∀ (n : Nat) (h : HeapSt) (b : List Nat), IsHeap h.entries h.entries.length →
    (∀ j, 1 ≤ j → j ≤ h.entries.length → slice_cmp b (getE h.entries (j - 1)).key ≤ 0) →
    (∀ key ∈ drainKeys n h, slice_cmp b key ≤ 0) ∧ nonDecreasing (drainKeys n h) := by
  intro n
  induction n with
  | zero =>
    intro h b _ _
    exact ⟨by intro key hk; simp [drainKeys] at hk, trivial⟩
  | succ n IH =>
    intro h b Hheap HLB
    by_cases hz : h.entries.length = 0
    · have he : heap_is_empty h = true := by simp [heap_is_empty, hz]
      unfold drainKeys
      rw [if_pos he]
      exact ⟨by intro key hk; simp at hk, trivial⟩
    · have he : ¬ (heap_is_empty h = true) := by simp [heap_is_empty, hz]
      unfold drainKeys
      rw [if_neg he, pop_eq_of_ne h hz]
      have Hheap' : IsHeap (heap_pop_slice_value h).2.2.entries
          (heap_pop_slice_value h).2.2.entries.length := pop_isHeap h Hheap
      have HLB' := pop_LB h Hheap hz
      rw [pop_eq_of_ne h hz] at Hheap' HLB'
      have IHres := IH _ (getE h.entries 0).key Hheap' HLB'
      constructor
      · intro key hk
        simp only [Option.getD_some, List.mem_cons] at hk
        rcases hk with hk | hk
        · subst hk
          exact HLB 1 (by omega) (by omega)
        · exact slice_cmp_trans _ _ _ (HLB 1 (by omega) (by omega)) (IHres.1 key hk)
      · rcases hrest : drainKeys n
            ⟨h.cap, siftDown (h.entries.length - 1)
              ((h.entries.set 0 (getE h.entries (h.entries.length - 1))).dropLast) 1⟩
          with _ | ⟨k2, t⟩
        · simp only [Option.getD_some, hrest]
          trivial
        · simp only [Option.getD_some, hrest]
          refine ⟨?_, ?_⟩
          · apply IHres.1
            rw [hrest]
            exact List.mem_cons_self k2 t
          · have h2 := IHres.2
            rw [hrest] at h2
            exact h2

theorem runOps_isHeap (ops : List HOp) :
    ∀ h : HeapSt, IsHeap h.entries h.entries.length →
      IsHeap (runOps h ops).entries (runOps h ops).entries.length := by
  induction ops with
  | nil => intro h H; exact H
  | cons op rest IH =>
    intro h H
    have hstep : IsHeap (runOp h op).entries (runOp h op).entries.length := by
      cases op with
      | push k v => exact push_isHeap h k v H
      | pop => exact pop_isHeap h H
    have hfold : runOps h (op :: rest) = runOps (runOp h op) rest := rfl
    rw [hfold]
    exact IH (runOp h op) hstep

theorem emptyHeap_isHeap (cap : Nat) :
    IsHeap (emptyHeap cap).entries (emptyHeap cap).entries.length := by
  intro j hj2 hjlen
  simp [emptyHeap] at hjlen
  omega

/-! ## Claim theorems about the heap -/

/-- Claim C3, counterexample: the claim expects the harness input foo,foo,bar
to pop values 3, 1, 2 (insertion order among the equal keys); the code pops
3, 2, 1 — its own test suite (test.sh) asserts exactly these values. -/
theorem heap_stability_insertion_order_refuted :
    (perform_sequence "foo,foo,bar").map Prod.snd ≠ ([3, 1, 2] : List Int) := by
  decide

/-- Claim C3, amended: the heap is not stable — equal keys are popped in an
order fixed by the sift paths, which is neither the insertion order nor any
other uniform rule (the sift-up loop swaps on comparator ≤ 0, so a pushed
equal key rises past resident ones).  The harness input foo,foo,bar pops
keys bar, foo, foo with values 3, 2, 1, exactly as the repository's test
suite asserts; four pushes of one equal key pop values 4, 1, 2, 3. -/
theorem heap_equal_keys_pop_order :
    perform_sequence "foo,foo,bar"
        = [(strBytes "bar", 3), (strBytes "foo", 2), (strBytes "foo", 1)]
      ∧ (perform_sequence "a,a,a,a").map Prod.snd = ([4, 1, 2, 3] : List Int) := by
  refine ⟨by decide, by decide⟩

/-- Claim C5: after any sequence of heap_push_slice and heap_pop_slice_value
operations starting from a fresh heap, the keys returned by then popping the
heap dry (successive pops with no intervening push) are non-decreasing under
the slice_cmp comparator. -/
theorem heap_drain_keys_nonDecreasing (cap : Nat) (ops : List HOp) :
    nonDecreasing (drainAll (runOps (emptyHeap cap) ops)) := by
  have H := runOps_isHeap ops (emptyHeap cap) (emptyHeap_isHeap cap)
  exact (drainKeys_bounded_sorted (runOps (emptyHeap cap) ops).entries.length
    (runOps (emptyHeap cap) ops) (getE (runOps (emptyHeap cap) ops).entries 0).key H
    (isHeap_root_le _ _ H)).2

/-! ## Claim theorems about the merge driver, comparator and error paths -/

/-- Claim C1: on foo.lst = "1\n2\n3\n4\n5\n6\n" and bar.lst =
"4\n5\n6\n7\n8\n9\n" the program writes exactly the expected merged stream
and exits with status 0 (EX_OK). -/
theorem tailmerge_end_to_end_foo_bar :
    tailmerge_main 100 [(strBytes "foo.lst", strBytes "1\n2\n3\n4\n5\n6\n"),
        (strBytes "bar.lst", strBytes "4\n5\n6\n7\n8\n9\n")]
      = some (strBytes
          ">>> foo.lst\n1\n2\n3\n4\n\n>>> bar.lst\n4\n5\n\n>>> foo.lst\n5\n6\n\n>>> bar.lst\n6\n7\n8\n9\n",
        0) := by
  decide

/-- Claim C2: evaluation at a failing input.  A single source holding
"ab\ncd\n" read through a buffer of capacity 4 needs two reads; the
no-newline branch of source_advance fails to move start/end past the
emitted line, so source_read keeps the already-written "ab\n", overwrites
the pending tail, and the program emits ">>> f\nab\nab\nd\n": "ab\n" is
written twice, the byte 'c' is lost, the line "cd\n" never appears, and
the 14 bytes written differ from 6 header bytes + 6 bytes read.  (main
uses capacity 0xffff; the same path runs for any file whose first 65535
bytes end mid-line after at least one newline.) -/
theorem conservation_fails_on_multi_read_source :
    tailmergeRun 100 4 [(strBytes "f", strBytes "ab\ncd\n")]
        = some (strBytes ">>> f\nab\nab\nd\n", 0)
      ∧ occursIn (strBytes "cd") (strBytes ">>> f\nab\nab\nd\n") = false
      ∧ (strBytes ">>> f\nab\nab\nd\n").length
          ≠ (strBytes ">>> f\n").length + (strBytes "ab\ncd\n").length := by
  refine ⟨by decide, by decide, by decide⟩

/-- Claim C4: evaluation at the failing input.  When open(2) fails,
source_create reports "Failed to opening <path>: <strerror>" but passes the
literal status 2 to checkerr, so the process exits with status 2, not 66
(EX_NOINPUT, which tailmerge.c imports in its sysexits.h comment and which
the uring driver uses for the same failure). -/
theorem open_failure_exits_with_status_2 :
    source_create_open "missing.lst" (-1) "No such file or directory"
        = .error ⟨2, "Failed to opening missing.lst: No such file or directory\n"⟩
      ∧ (2 : Nat) ≠ 66 := by
  exact ⟨rfl, by decide⟩

/-- Claim C6: the sign of slice_cmp is the sign of the first differing byte
within the first min(len_a, len_b) bytes, and the sign of len_a - len_b
when those bytes all agree (so the shorter slice precedes the longer). -/
theorem slice_cmp_matches_spec (a : List Nat) : ∀ b : List Nat,
    (∀ i, i < min a.length b.length →
        (∀ j, j < i → a.getD j 0 = b.getD j 0) →
        a.getD i 0 ≠ b.getD i 0 →
        sign (slice_cmp a b) = sign ((a.getD i 0 : Int) - (b.getD i 0 : Int)))
    ∧ ((∀ j, j < min a.length b.length → a.getD j 0 = b.getD j 0) →
        sign (slice_cmp a b) = sign ((a.length : Int) - (b.length : Int))) := by
  induction a with
  | nil =>
    intro b
    constructor
    · intro i hi
      simp at hi
    · intro _
      rw [slice_cmp_nil_left]
      simp
  | cons x as ih =>
    intro b
    cases b with
    | nil =>
      constructor
      · intro i hi
        simp at hi
      · intro _
        rw [slice_cmp_nil_right]
        simp
    | cons y bs =>
      by_cases hxy : x = y
      · subst hxy
        rw [slice_cmp_cons_eq]
        constructor
        · intro i hi hprev hdiff
          cases i with
          | zero =>
            simp [List.getD_cons_zero] at hdiff
          | succ i =>
            have hi' : i < min as.length bs.length := by
              simp only [List.length_cons] at hi
              omega
            have hprev' : ∀ j, j < i → as.getD j 0 = bs.getD j 0 := by
              intro j hj
              have := hprev (j + 1) (by omega)
              simpa [List.getD_cons_succ] using this
            have hdiff' : as.getD i 0 ≠ bs.getD i 0 := by
              simpa [List.getD_cons_succ] using hdiff
            have := (ih bs).1 i hi' hprev' hdiff'
            simpa [List.getD_cons_succ] using this
        · intro hall
          have hall' : ∀ j, j < min as.length bs.length → as.getD j 0 = bs.getD j 0 := by
            intro j hj
            have := hall (j + 1) (by simp only [List.length_cons]; omega)
            simpa [List.getD_cons_succ] using this
          have hlen : (((x :: as).length : Int) - ((x :: bs).length : Int))
              = ((as.length : Int) - (bs.length : Int)) := by
            simp only [List.length_cons]
            push_cast
            ring
          rw [hlen]
          exact (ih bs).2 hall'
      · rw [slice_cmp_cons_ne _ _ _ _ hxy]
        constructor
        · intro i hi hprev hdiff
          cases i with
          | zero =>
            simp [List.getD_cons_zero]
          | succ i =>
            have := hprev 0 (by omega)
            simp [List.getD_cons_zero] at this
            exact absurd this hxy
        · intro hall
          have h0 := hall 0 (by simp only [List.length_cons]; omega)
          simp [List.getD_cons_zero] at h0
          exact absurd h0 hxy

/-- Witness for C6: "app" and "apple" agree on their first three bytes, so
the comparator falls back to the length difference and "app" precedes
"apple". -/
theorem slice_cmp_matches_spec_witness :
    sign (slice_cmp (strBytes "app") (strBytes "apple"))
        = sign (((strBytes "app").length : Int) - ((strBytes "apple").length : Int))
      ∧ slice_cmp (strBytes "app") (strBytes "apple") < 0 :=
  ⟨(slice_cmp_matches_spec (strBytes "app") (strBytes "apple")).2 (by decide), by decide⟩

/-- Claim C7, counterexample: a writev returning 0 does not make the flush
loop report an I/O failure — the loop retries the same state (here the later
result 1 is then consumed normally), so the claimed failure exit never
happens on a zero-byte write. -/
theorem flushW_zero_write_not_io_failure :
    lines_flushW [0, 1] [[97, 98]] 0 ≠ FlushOutcome.ioError := by
  decide

/-- Claim C7, amended: a vectored write that returns zero bytes is retried
with unchanged state (checkerr only exits on negative values), and it is a
negative writev result that is treated as an I/O failure. -/
theorem flushW_zero_write_retried_negative_fails :
    (∀ (oracle : List Int) (slices : List (List Nat)) (cw : Nat),
        (∀ sl ∈ slices, sl ≠ []) →
        lines_flushW (0 :: oracle) slices cw = lines_flushW oracle slices cw)
    ∧ (∀ (oracle : List Int) (slices : List (List Nat)) (cw : Nat),
        cw < slices.length →
        lines_flushW (-1 :: oracle) slices cw = FlushOutcome.ioError) := by
  constructor
  · intro oracle slices cw hne
    by_cases hcw : cw < slices.length
    · rcases hd : slices.drop cw with _ | ⟨sl, rest1⟩
      · exfalso
        have := congrArg List.length hd
        simp [List.length_drop] at this
        omega
      · have hsl : sl ∈ slices := by
          have hmem : sl ∈ slices.drop cw := by
            rw [hd]
            exact List.mem_cons_self sl rest1
          exact List.mem_of_mem_drop hmem
        have hpos : 0 < sl.length := List.length_pos.mpr (hne sl hsl)
        rw [lines_flushW, if_pos hcw, if_neg (by omega : ¬ ((0 : Int) < 0)), hd]
        simp only [Int.toNat_zero, advanceFrom]
        rw [if_neg (by omega : ¬ (0 ≥ sl.length))]
        simp
    · cases oracle with
      | nil =>
        rw [lines_flushW, lines_flushW, if_neg hcw, if_neg hcw]
      | cons w rest =>
        rw [lines_flushW, lines_flushW, if_neg hcw, if_neg hcw]
  · intro oracle slices cw hcw
    rw [lines_flushW, if_pos hcw, if_pos (by omega : (-1 : Int) < 0)]

/-- Witness for C7's amended theorem at concrete inputs. -/
theorem flushW_zero_write_retried_witness :
    lines_flushW [0, 3] [[97, 98, 99]] 0 = lines_flushW [3] [[97, 98, 99]] 0
      ∧ lines_flushW [-1] [[97]] 0 = FlushOutcome.ioError :=
  ⟨flushW_zero_write_retried_negative_fails.1 [3] [[97, 98, 99]] 0 (by decide),
    flushW_zero_write_retried_negative_fails.2 [] [[97]] 0 (by decide)⟩

/-- Claim C8: evaluation at a failing input.  For a single source "a"
(no trailing newline) the driver appends the synthetic NEWLINE slice to the
coalescer after the last flush, but the merge loop then terminates and
lines_destroy frees the batch without writing it: the output is
">>> f\na" and no newline follows the line's bytes. -/
theorem synthetic_newline_lost_at_end_of_output :
    tailmerge_main 100 [(strBytes "f", strBytes "a")] = some (strBytes ">>> f\na", 0)
      ∧ (strBytes ">>> f\na").getLast? ≠ some 10 := by
  refine ⟨by decide, by decide⟩

/-- Claim C9: popping an empty heap returns -1, clears the out-key (NULL
base, length 0) and leaves the heap unchanged. -/
theorem pop_on_empty_returns_neg1_and_clears (h : HeapSt) (hz : h.entries.length = 0) :
    heap_pop_slice_value h = (-1, ⟨none, 0⟩, h) := by
  unfold heap_pop_slice_value
  rw [if_pos hz]

/-- Witness for C9 on a concrete empty heap. -/
theorem pop_on_empty_witness :
    heap_pop_slice_value (emptyHeap 4) = (-1, ⟨none, 0⟩, emptyHeap 4) :=
  pop_on_empty_returns_neg1_and_clears (emptyHeap 4) rfl

/-- Claim C10: evaluation at the failing input.  When a writev writes all
remaining bytes (the ordinary successful flush), the inner advance loop
evaluates to_write[completely_written].iov_len at completely_written =
lines->length before the outer guard runs: with one 3-byte slice and a
write result of 3 the checked model reaches the out-of-bounds branch at
index 1 = length. -/
theorem flush_inner_loop_reads_index_length :
    lines_flushW [3] [[97, 98, 99]] 0 = FlushOutcome.oob 1
      ∧ ([[97, 98, 99]] : List (List Nat)).length = 1 := by
  refine ⟨by decide, by decide⟩

end Tailmerge
